import Mathlib

/-!
Shallow embedding of the free-slot computation of the scritchlow-calendar
service (src/api/index.js, src/api/_lib.js, src/api/free-slots.js and the
unnamed revisions src/unnamed/part_000, part_001), together with proofs of
the specified properties.

Time is modelled as integer minutes on a global timeline.  A dayjs-style
IANA time zone is abstracted as a pair of functions: the civil date of an
instant in the zone, and the instant of a given local time on a given civil
date.  The inner `while` loops of the source need not terminate when the
slot duration is not positive, so they are modelled with an explicit fuel
parameter and return `none` when the fuel runs out; `∀ fuel, ... = none`
renders divergence, and monotonicity in fuel is proved below so that
`∃ fuel, (... ).isSome` renders termination.
-/

namespace ScritchlowCalendar

/-- A busy block or a candidate slot: the `{start, end}` pairs of
src/api/index.js (`end` is a Lean keyword, rendered `stop`). -/
structure Interval where
  start : Int
  stop : Int
deriving DecidableEq, Repr

/-- Abstraction of the dayjs time-zone operations used by `findSlots`:
`localDate t` is the civil date of instant `t` in the zone
(`cursor.tz(tz).format("YYYY-MM-DD")`), and `zonedMinutes d m` is the
instant of local time `m` (minutes after midnight) on civil date `d`
(`dayjs.tz(date + "T" + hhmm, tz).utc()`). -/
structure Zone where
  localDate : Int → Int
  zonedMinutes : Int → Int → Int

/-- `WORK_START = "09:00"` of src/api/index.js, in minutes after midnight. -/
def WORK_START : Int := 540

/-- `WORK_END = "17:00"` of src/api/index.js, in minutes after midnight. -/
def WORK_END : Int := 1020

/-- The instant of the 09:00 business open on the civil day of instant `c`:
`dayjs.tz(localDay.format("YYYY-MM-DD") + "T" + WORK_START, tz).utc()`. -/
def Zone.dayStartAt (z : Zone) (c : Int) : Int :=
  z.zonedMinutes (z.localDate c) WORK_START

/-- The instant of the 17:00 business close on the civil day of instant `c`:
`dayjs.tz(localDay.format("YYYY-MM-DD") + "T" + WORK_END, tz).utc()`. -/
def Zone.dayEndAt (z : Zone) (c : Int) : Int :=
  z.zonedMinutes (z.localDate c) WORK_END

/-- The inner slot loop of `findSlots` (src/api/index.js lines 109-121 and
130-142): starting at `slotStart`, repeatedly take a slot of exactly `dur`
minutes while the slot's end does not exceed `bound`; a slot is pushed only
when its start is strictly after `now` (`slotStart.isAfter(dayjs())`), and
the loop breaks once `maxSlots` results are collected.  `fuel` bounds the
number of iterations; `none` means the loop did not finish in `fuel`
steps. -/
def fillSlots (now dur maxSlots bound : Int) :
    Nat → Int → List Interval → Option (List Interval)
  | 0, _, _ => none
  | fuel + 1, slotStart, results =>
    if slotStart + dur ≤ bound then
      if now < slotStart then
        let results2 := results ++ [⟨slotStart, slotStart + dur⟩]
        if maxSlots ≤ (results2.length : Int) then some results2
        else fillSlots now dur maxSlots bound fuel (slotStart + dur) results2
      else fillSlots now dur maxSlots bound fuel (slotStart + dur) results
    else some results

/-- The `for (const b of todaysBusy)` loop of `findSlots` (src/api/index.js
lines 104-126): fill the gap before each busy block, advance `windowStart`
to the busy block's end when that end is after the cursor, and break once
`maxSlots` results are collected.  Returns the final `windowStart` together
with the results. -/
def processBusy (now dur maxSlots : Int) (fuel : Nat) :
    List Interval → Int → List Interval → Option (Int × List Interval)
  | [], windowStart, results => some (windowStart, results)
  | b :: rest, windowStart, results =>
    match (if windowStart < b.start then
             fillSlots now dur maxSlots b.start fuel windowStart results
           else some results) with
    | none => none
    | some results2 =>
      let windowStart2 := if windowStart < b.stop then b.stop else windowStart
      if maxSlots ≤ (results2.length : Int) then some (windowStart2, results2)
      else processBusy now dur maxSlots fuel rest windowStart2 results2

/-- The per-day busy selection of `findSlots` (src/api/index.js lines
99-101): `busy.filter(b => dayjs(b.end).isAfter(dayStart) &&
dayjs(b.start).isBefore(dayEnd))`. -/
def todaysBusy (busy : List Interval) (dayStart dayEnd : Int) : List Interval :=
  busy.filter fun b => decide (dayStart < b.stop ∧ b.start < dayEnd)

/-- The body of the day loop of `findSlots` (src/api/index.js lines 91-144):
compute the day's business window, skip the day when its end is not after
the global window start, walk the day's busy blocks, and fill the tail gap
up to the day's end when fewer than `maxSlots` results were collected and
the cursor is still before the day's end. -/
def processDay (z : Zone) (busy : List Interval) (now dur maxSlots : Int)
    (fuel : Nat) (fromT cursor : Int) (results : List Interval) :
    Option (List Interval) :=
  let dayStart := z.dayStartAt cursor
  let dayEnd := z.dayEndAt cursor
  if fromT < dayEnd then
    match processBusy now dur maxSlots fuel (todaysBusy busy dayStart dayEnd)
        dayStart results with
    | none => none
    | some (windowStart2, results2) =>
      if (results2.length : Int) < maxSlots ∧ windowStart2 < dayEnd then
        fillSlots now dur maxSlots dayEnd fuel windowStart2 results2
      else some results2
  else some results

/-- The day loop of `findSlots` (src/api/index.js lines 89-147): while the
cursor is before `hardEnd` and fewer than `maxSlots` results are collected,
process one civil day and advance the cursor by one day (1440 minutes).
`dayFuel` bounds the number of day iterations; `findSlots` below passes a
fuel large enough that the loop always exits through its own condition
before the fuel runs out. -/
def findSlotsGo (z : Zone) (busy : List Interval) (now dur maxSlots : Int)
    (fuel : Nat) (fromT hardEnd : Int) :
    Nat → Int → List Interval → Option (List Interval)
  | 0, _, results => some results
  | dayFuel + 1, cursor, results =>
    if cursor < hardEnd ∧ (results.length : Int) < maxSlots then
      match processDay z busy now dur maxSlots fuel fromT cursor results with
      | none => none
      | some results3 =>
        findSlotsGo z busy now dur maxSlots fuel fromT hardEnd dayFuel
          (cursor + 1440) results3
    else some results

/-- `findSlots` of src/api/index.js lines 68-150, after the busy list has
been fetched and sorted: walk the days from `fromT` to `toT`.  The day loop
runs at most `(toT - fromT).toNat` iterations (the cursor advances by 1440
minutes per iteration), so that fuel always suffices for the day loop; the
`fuel` argument bounds only the inner slot loops. -/
def findSlots (z : Zone) (busy : List Interval) (now dur maxSlots : Int)
    (fuel : Nat) (fromT toT : Int) : Option (List Interval) :=
  findSlotsGo z busy now dur maxSlots fuel fromT toT (toT - fromT).toNat
    fromT []

/-- A fixed-offset zone used for concrete evaluations: civil dates are the
UTC dates and local time equals UTC. -/
def utcZone : Zone where
  localDate := fun c => c / 1440
  zonedMinutes := fun d m => d * 1440 + m

/-- A zone modelling the civil-date collapse of a DST fall-back day
(America/Chicago, 2025-11-02): the fall-back date 0 spans 25 hours of
absolute time (minutes 0 to 1500), so the 24-hour cursor steps at 30
(local 00:30 CDT) and at 30 + 1440 (local 23:30 CST) both land on civil
date 0; later dates run on standard time, 60 minutes behind. -/
def fallZone : Zone where
  localDate := fun c => if c < 1500 then 0 else (c - 60) / 1440
  zonedMinutes := fun d m => if d ≤ 0 then d * 1440 + m else d * 1440 + 60 + m

/-- `offsetForTZ` of src/api/_lib.js lines 103-112: a fixed offset string
per zone name, with unrecognized zones silently mapped to `"-05:00"`.  It
takes no date, so the offset cannot depend on the date. -/
def offsetForTZ (tz : String) : String :=
  if tz = "America/New_York" then "-04:00"
  else if tz = "America/Chicago" then "-05:00"
  else if tz = "America/Denver" then "-06:00"
  else if tz = "America/Los_Angeles" then "-07:00"
  else "-05:00"

/-- The request parameters of `GET /api/free-slots` (src/api/index.js lines
167-210) after defaulting, for the path where `from` and `to` are given
explicitly: `durationMin = Number(req.query.duration || 30)`,
`limit = Number(req.query.limit || 5)`. -/
structure FreeSlotsQuery where
  calendarId : String
  durationMin : Int
  limit : Int
  fromT : Int
  toT : Int
deriving DecidableEq, Repr

/-- Outcome of the handler's validation phase: either an early
`res.status(400)` rejection, or the `findSlots` invocation (which issues
the busy-interval fetch) with the parameters passed to it. -/
inductive HandlerResult where
  | reject400 (msg : String)
  | callFinder (durationMin maxSlots fromT toT : Int)
deriving DecidableEq, Repr

/-- The validation logic of `GET /api/free-slots` (src/api/index.js lines
175-210): reject a missing `calendarId`, then reject an inverted window
(`dayjs(toISOv).isSameOrBefore(dayjs(fromISO))`), and otherwise invoke
`findSlots` with `durationMin` and `limit` exactly as parsed - no other
check is performed before the call. -/
def freeSlotsValidate (q : FreeSlotsQuery) : HandlerResult :=
  if q.calendarId = "" then .reject400 "missing calendarId"
  else if q.toT ≤ q.fromT then .reject400 "invalid window: to must be after from"
  else .callFinder q.durationMin q.limit q.fromT q.toT

/-! ### C2: validation of duration and limit -/

/-- C2 counterexample: the claim says a request with non-positive
`durationMinutes` or non-positive `maxSlots` is rejected as a validation
error before the busy-interval fetch and before `findSlots` runs.  The
handler of src/api/index.js only checks `calendarId` and the window order:
a request with `duration = -5` and `limit = -3` passes validation and the
finder is invoked with those values. -/
theorem C2_counterexample :
    freeSlotsValidate ⟨"cal", -5, -3, 0, 1440⟩ =
      HandlerResult.callFinder (-5) (-3) 0 1440 := by decide

/-- C2 amended: the handler rejects only a missing `calendarId` or an
inverted window (`to ≤ from`); any `durationMin` and `limit`, including
non-positive ones, are passed to the finder unchanged (never clamped) - no
validation of their sign is performed before the fetch. -/
theorem C2_amended (q : FreeSlotsQuery) (hcal : q.calendarId ≠ "")
    (hwin : q.fromT < q.toT) :
    freeSlotsValidate q =
      HandlerResult.callFinder q.durationMin q.limit q.fromT q.toT := by
  unfold freeSlotsValidate
  rw [if_neg hcal, if_neg (by omega)]

/-- C2 witness: the amended theorem at a concrete request. -/
theorem C2_witness :
    freeSlotsValidate ⟨"x", -7, 0, 5, 9⟩ =
      HandlerResult.callFinder (-7) 0 5 9 :=
  C2_amended ⟨"x", -7, 0, 5, 9⟩ (by decide) (by decide)

/-! ### C3: fixed-offset time-zone lookup in src/api/_lib.js -/

/-- C3: the claim (and the spec's stated intent) requires a true IANA
time-zone database lookup, with the offset for a zone such as
America/Chicago depending on the date (CST is -06:00, CDT is -05:00), and
no silent default for unrecognized zones.  `offsetForTZ` of src/api/_lib.js
takes no date at all and returns the constant `"-05:00"` for
America/Chicago - so on any standard-time date (e.g. 2025-01-15, when the
IANA offset is -06:00) the wrong offset is applied - and it silently maps
an unrecognized zone such as Europe/Paris to `"-05:00"` as well. -/
theorem C3_fixed_offset_bug :
    offsetForTZ "America/Chicago" = "-05:00" ∧
      offsetForTZ "America/Chicago" ≠ "-06:00" ∧
      offsetForTZ "Europe/Paris" = "-05:00" ∧
      offsetForTZ "UTC" = "-05:00" := by
  refine ⟨rfl, ?_, rfl, rfl⟩
  decide

/-! ### C4 counterexample: a zero-length busy interval is not inert -/

/-- C4 counterexample: the claim says zero-length or inverted busy
intervals are inert.  A zero-length interval at 630 inside the business
window passes the per-day filter (`630 > dayStart` and `630 < dayEnd`),
advances `windowStart` to 630 and so re-anchors the duration grid: with
60-minute slots the day yields 7 slots instead of 8, so removing the
interval changes the result of `findSlots`. -/
theorem C4_counterexample :
    findSlots utcZone [⟨630, 630⟩] 0 60 100 50 540 1440 ≠
      findSlots utcZone [] 0 60 100 50 540 1440 := by decide

/-! ### Shape of emitted slots -/

/-- Every element of the result of the inner slot loop is either an element
of the incoming accumulator or a slot of exactly `dur` minutes whose start
is strictly after `now` and whose end does not exceed the loop's bound. -/
lemma fillSlots_mem (now dur maxSlots bound : Int) :
    ∀ (fuel : Nat) (s : Int) (acc res : List Interval),
      fillSlots now dur maxSlots bound fuel s acc = some res →
      ∀ x ∈ res,
        x ∈ acc ∨ (now < x.start ∧ x.stop = x.start + dur ∧ x.stop ≤ bound) := by
  intro fuel
  induction fuel with
  | zero => intro s acc res h; exact absurd h (by simp [fillSlots])
  | succ n ih =>
    intro s acc res h x hx
    simp only [fillSlots] at h
    split_ifs at h with h1 h2 h3
    · obtain rfl : acc ++ [⟨s, s + dur⟩] = res := Option.some.inj h
      rcases List.mem_append.mp hx with hxa | hxs
      · exact Or.inl hxa
      · simp only [List.mem_singleton] at hxs
        subst hxs
        exact Or.inr ⟨h2, rfl, h1⟩
    · rcases ih (s + dur) (acc ++ [⟨s, s + dur⟩]) res h x hx with hm | hp
      · rcases List.mem_append.mp hm with hxa | hxs
        · exact Or.inl hxa
        · simp only [List.mem_singleton] at hxs
          subst hxs
          exact Or.inr ⟨h2, rfl, h1⟩
      · exact Or.inr hp
    · exact ih (s + dur) acc res h x hx
    · obtain rfl : acc = res := Option.some.inj h
      exact Or.inl hx

/-- Every element of the result of the busy-block loop is either an element
of the incoming accumulator or a slot of exactly `dur` minutes whose start
is strictly after `now`. -/
lemma processBusy_mem (now dur maxSlots : Int) (fuel : Nat) :
    ∀ (l : List Interval) (ws : Int) (acc : List Interval) (ws' : Int)
      (res : List Interval),
      processBusy now dur maxSlots fuel l ws acc = some (ws', res) →
      ∀ x ∈ res, x ∈ acc ∨ (now < x.start ∧ x.stop = x.start + dur) := by
  intro l
  induction l with
  | nil =>
    intro ws acc ws' res h x hx
    simp only [processBusy, Option.some.injEq, Prod.mk.injEq] at h
    obtain ⟨rfl, rfl⟩ := h
    exact Or.inl hx
  | cons b rest ih =>
    intro ws acc ws' res h x hx
    simp only [processBusy] at h
    split at h
    · exact absurd h (by simp)
    · rename_i results2 heq
      have hmem2 : ∀ y ∈ results2,
          y ∈ acc ∨ (now < y.start ∧ y.stop = y.start + dur) := by
        split_ifs at heq with hgap
        · intro y hy
          rcases fillSlots_mem now dur maxSlots b.start fuel ws acc results2
              heq y hy with hm | ⟨hn, hs, _⟩
          · exact Or.inl hm
          · exact Or.inr ⟨hn, hs⟩
        · obtain rfl : acc = results2 := Option.some.inj heq
          exact fun y hy => Or.inl hy
      by_cases hbreak : maxSlots ≤ (results2.length : Int)
      · rw [if_pos hbreak] at h
        simp only [Option.some.injEq, Prod.mk.injEq] at h
        obtain ⟨-, rfl⟩ := h
        exact hmem2 x hx
      · rw [if_neg hbreak] at h
        rcases ih _ results2 ws' res h x hx with hm | hp
        · exact hmem2 x hm
        · exact Or.inr hp

/-- Every element of the result of one day's processing is either an
element of the incoming accumulator or a slot of exactly `dur` minutes
whose start is strictly after `now`. -/
lemma processDay_mem (z : Zone) (busy : List Interval)
    (now dur maxSlots : Int) (fuel : Nat) (fromT cursor : Int)
    (acc res : List Interval)
    (h : processDay z busy now dur maxSlots fuel fromT cursor acc = some res) :
    ∀ x ∈ res, x ∈ acc ∨ (now < x.start ∧ x.stop = x.start + dur) := by
  intro x hx
  simp only [processDay] at h
  split_ifs at h with hday
  · split at h
    · exact absurd h (by simp)
    · rename_i ws2 acc2 heq
      have hmem2 : ∀ y ∈ acc2, y ∈ acc ∨ (now < y.start ∧ y.stop = y.start + dur) :=
        processBusy_mem now dur maxSlots fuel _ _ acc ws2 acc2 heq
      split_ifs at h with htail
      · rcases fillSlots_mem now dur maxSlots _ fuel ws2 acc2 res h x hx with
          hm | ⟨hn, hs, _⟩
        · exact hmem2 x hm
        · exact Or.inr ⟨hn, hs⟩
      · obtain rfl : acc2 = res := Option.some.inj h
        exact hmem2 x hx
  · obtain rfl : acc = res := Option.some.inj h
    exact Or.inl hx

/-- Every element of the result of the day loop is either an element of the
incoming accumulator or a slot of exactly `dur` minutes whose start is
strictly after `now`. -/
lemma findSlotsGo_mem (z : Zone) (busy : List Interval)
    (now dur maxSlots : Int) (fuel : Nat) (fromT hardEnd : Int) :
    ∀ (dayFuel : Nat) (cursor : Int) (acc res : List Interval),
      findSlotsGo z busy now dur maxSlots fuel fromT hardEnd dayFuel cursor acc
        = some res →
      ∀ x ∈ res, x ∈ acc ∨ (now < x.start ∧ x.stop = x.start + dur) := by
  intro dayFuel
  induction dayFuel with
  | zero =>
    intro cursor acc res h x hx
    obtain rfl : acc = res := Option.some.inj h
    exact Or.inl hx
  | succ n ih =>
    intro cursor acc res h x hx
    simp only [findSlotsGo] at h
    split_ifs at h with hguard
    · split at h
      · exact absurd h (by simp)
      · rename_i results3 heq
        rcases ih (cursor + 1440) results3 res h x hx with hm | hp
        · exact processDay_mem z busy now dur maxSlots fuel fromT cursor acc
            results3 heq x hm
        · exact Or.inr hp
    · obtain rfl : acc = res := Option.some.inj h
      exact Or.inl hx

/-! ### C6: every returned slot has exactly the requested duration -/

/-- C6: for every run of `findSlots` that finishes, every returned slot has
`end - start` exactly equal to the requested duration; no partial or
truncated slot is ever emitted at a busy-block or day-end boundary (the
inner loop only pushes `{slotStart, slotStart + durationMin}` and only
while that end fits the bound). -/
theorem C6_duration (z : Zone) (busy : List Interval)
    (now dur maxSlots : Int) (fuel : Nat) (fromT toT : Int)
    (res : List Interval)
    (h : findSlots z busy now dur maxSlots fuel fromT toT = some res) :
    ∀ x ∈ res, x.stop - x.start = dur := by
  intro x hx
  rcases findSlotsGo_mem z busy now dur maxSlots fuel fromT toT
      (toT - fromT).toNat fromT [] res h x hx with hm | ⟨-, hs⟩
  · exact absurd hm (List.not_mem_nil x)
  · omega

/-- C6 witness: the theorem at a concrete run. -/
theorem C6_witness : (⟨540, 600⟩ : Interval).stop - (⟨540, 600⟩ : Interval).start = 60 :=
  C6_duration utcZone [] 0 60 3 50 540 1440
    [⟨540, 600⟩, ⟨600, 660⟩, ⟨660, 720⟩] (by decide) ⟨540, 600⟩ (by decide)

/-! ### C7: every returned slot starts strictly after now -/

/-- C7: for every run of `findSlots` that finishes, every returned slot
starts strictly after `now` (the per-candidate filter
`slotStart.isAfter(dayjs())`); slots at or before `now` are skipped, never
included.  The wall clock is modelled as the fixed parameter `now` of the
pure embedding. -/
theorem C7_after_now (z : Zone) (busy : List Interval)
    (now dur maxSlots : Int) (fuel : Nat) (fromT toT : Int)
    (res : List Interval)
    (h : findSlots z busy now dur maxSlots fuel fromT toT = some res) :
    ∀ x ∈ res, now < x.start := by
  intro x hx
  rcases findSlotsGo_mem z busy now dur maxSlots fuel fromT toT
      (toT - fromT).toNat fromT [] res h x hx with hm | ⟨hn, -⟩
  · exact absurd hm (List.not_mem_nil x)
  · exact hn

/-- C7 witness: the theorem at a concrete run whose window opens before
`now`. -/
theorem C7_witness : (550 : Int) < (⟨600, 660⟩ : Interval).start :=
  C7_after_now utcZone [] 550 60 2 50 540 1440
    [⟨600, 660⟩, ⟨660, 720⟩] (by decide) ⟨600, 660⟩ (by decide)

/-! ### Result-length bounds -/

/-- The inner slot loop never grows the result list beyond `maxSlots` when
it is entered with fewer than `maxSlots` results. -/
lemma fillSlots_length (now dur maxSlots bound : Int) :
    ∀ (fuel : Nat) (s : Int) (acc res : List Interval),
      (acc.length : Int) < maxSlots →
      fillSlots now dur maxSlots bound fuel s acc = some res →
      (res.length : Int) ≤ maxSlots := by
  intro fuel
  induction fuel with
  | zero => intro s acc res _ h; exact absurd h (by simp [fillSlots])
  | succ n ih =>
    intro s acc res hlen h
    simp only [fillSlots] at h
    split_ifs at h with h1 h2 h3
    · obtain rfl : acc ++ [⟨s, s + dur⟩] = res := Option.some.inj h
      simp only [List.length_append, List.length_singleton]
      push_cast
      omega
    · refine ih (s + dur) (acc ++ [⟨s, s + dur⟩]) res ?_ h
      simp only [List.length_append, List.length_singleton] at h3 ⊢
      push_cast at h3 ⊢
      omega
    · exact ih (s + dur) acc res hlen h
    · obtain rfl : acc = res := Option.some.inj h
      omega

/-- The busy-block loop never grows the result list beyond `maxSlots` when
it is entered with fewer than `maxSlots` results. -/
lemma processBusy_length (now dur maxSlots : Int) (fuel : Nat) :
    ∀ (l : List Interval) (ws : Int) (acc : List Interval) (ws' : Int)
      (res : List Interval),
      (acc.length : Int) < maxSlots →
      processBusy now dur maxSlots fuel l ws acc = some (ws', res) →
      (res.length : Int) ≤ maxSlots := by
  intro l
  induction l with
  | nil =>
    intro ws acc ws' res hlen h
    simp only [processBusy, Option.some.injEq, Prod.mk.injEq] at h
    obtain ⟨rfl, rfl⟩ := h
    omega
  | cons b rest ih =>
    intro ws acc ws' res hlen h
    simp only [processBusy] at h
    split at h
    · exact absurd h (by simp)
    · rename_i results2 heq
      have hlen2 : (results2.length : Int) ≤ maxSlots := by
        split_ifs at heq with hgap
        · exact fillSlots_length now dur maxSlots b.start fuel ws acc results2
            hlen heq
        · obtain rfl : acc = results2 := Option.some.inj heq
          omega
      by_cases hbreak : maxSlots ≤ (results2.length : Int)
      · rw [if_pos hbreak] at h
        simp only [Option.some.injEq, Prod.mk.injEq] at h
        obtain ⟨-, rfl⟩ := h
        exact hlen2
      · rw [if_neg hbreak] at h
        exact ih _ results2 ws' res (by omega) h

/-- One day's processing never grows the result list beyond `maxSlots` when
it is entered with fewer than `maxSlots` results. -/
lemma processDay_length (z : Zone) (busy : List Interval)
    (now dur maxSlots : Int) (fuel : Nat) (fromT cursor : Int)
    (acc res : List Interval)
    (hlen : (acc.length : Int) < maxSlots)
    (h : processDay z busy now dur maxSlots fuel fromT cursor acc = some res) :
    (res.length : Int) ≤ maxSlots := by
  simp only [processDay] at h
  split_ifs at h with hday
  · split at h
    · exact absurd h (by simp)
    · rename_i ws2 acc2 heq
      have hlen2 : (acc2.length : Int) ≤ maxSlots :=
        processBusy_length now dur maxSlots fuel _ _ acc ws2 acc2 hlen heq
      split_ifs at h with htail
      · exact fillSlots_length now dur maxSlots _ fuel ws2 acc2 res htail.1 h
      · obtain rfl : acc2 = res := Option.some.inj h
        exact hlen2
  · obtain rfl : acc = res := Option.some.inj h
    omega

/-- The day loop never grows the result list beyond `maxSlots` when it is
entered with at most `maxSlots` results. -/
lemma findSlotsGo_length (z : Zone) (busy : List Interval)
    (now dur maxSlots : Int) (fuel : Nat) (fromT hardEnd : Int) :
    ∀ (dayFuel : Nat) (cursor : Int) (acc res : List Interval),
      (acc.length : Int) ≤ maxSlots →
      findSlotsGo z busy now dur maxSlots fuel fromT hardEnd dayFuel cursor acc
        = some res →
      (res.length : Int) ≤ maxSlots := by
  intro dayFuel
  induction dayFuel with
  | zero =>
    intro cursor acc res hlen h
    obtain rfl : acc = res := Option.some.inj h
    exact hlen
  | succ n ih =>
    intro cursor acc res hlen h
    simp only [findSlotsGo] at h
    split_ifs at h with hguard
    · split at h
      · exact absurd h (by simp)
      · rename_i results3 heq
        exact ih (cursor + 1440) results3 res
          (processDay_length z busy now dur maxSlots fuel fromT cursor acc
            results3 hguard.2 heq) h
    · obtain rfl : acc = res := Option.some.inj h
      exact hlen

/-! ### C8: the result cap -/

/-- C8: for every run with `maxSlots > 0`, the returned sequence has length
at most `maxSlots`, and generation stops early once `maxSlots` results are
collected: as soon as the accumulated results reach `maxSlots`, the day
loop returns them unchanged, consuming no further day or busy-gap. -/
theorem C8_maxSlots (z : Zone) (busy : List Interval)
    (now dur maxSlots : Int) (fuel : Nat) (fromT toT : Int)
    (res : List Interval) (hmax : 0 < maxSlots)
    (h : findSlots z busy now dur maxSlots fuel fromT toT = some res) :
    (res.length : Int) ≤ maxSlots ∧
      ∀ (dayFuel : Nat) (cursor : Int) (acc : List Interval),
        maxSlots ≤ (acc.length : Int) →
        findSlotsGo z busy now dur maxSlots fuel fromT toT dayFuel cursor acc
          = some acc := by
  constructor
  · exact findSlotsGo_length z busy now dur maxSlots fuel fromT toT
      (toT - fromT).toNat fromT [] res (by simp; omega) h
  · intro dayFuel cursor acc hacc
    cases dayFuel with
    | zero => rfl
    | succ n =>
      simp only [findSlotsGo]
      rw [if_neg (by omega)]

/-- C8 witness: the theorem at a concrete run with `maxSlots = 2`. -/
theorem C8_witness :
    (([⟨540, 600⟩, ⟨600, 660⟩] : List Interval).length : Int) ≤ 2 ∧
      findSlotsGo utcZone [] 0 60 2 50 540 1440 5 540 [⟨0, 60⟩, ⟨60, 120⟩]
        = some [⟨0, 60⟩, ⟨60, 120⟩] := by
  have hc := C8_maxSlots utcZone [] 0 60 2 50 540 1440
    [⟨540, 600⟩, ⟨600, 660⟩] (by decide) (by decide)
  exact ⟨hc.1, hc.2 5 540 [⟨0, 60⟩, ⟨60, 120⟩] (by decide)⟩

/-! ### C9: results are not clipped to the query window -/

/-- C9: `findSlots` does not clip its results to the query window's
instants.  With the window starting mid-day at 600 (after the 09:00 open at
540) the first day's gap is filled from the day start, producing a slot
starting at 540 < 600; with the window ending at 1000 (before the 17:00
close at 1020) the day's tail is filled up to 1020, producing a slot ending
at 1020 > 1000. -/
theorem C9_not_clipped :
    (∃ l, findSlots utcZone [] 0 60 10 100 600 1440 = some l ∧
        ∃ x ∈ l, x.start < 600) ∧
      (∃ l, findSlots utcZone [] 0 60 10 100 540 1000 = some l ∧
        ∃ x ∈ l, 1000 < x.stop) := by
  constructor
  · exact ⟨_, rfl, ⟨540, 600⟩, by decide, by decide⟩
  · exact ⟨_, rfl, ⟨960, 1020⟩, by decide, by decide⟩

/-! ### Full specification of the inner loops -/

/-- Full specification of the inner slot loop for a positive duration: the
result extends the accumulator by slots that start no earlier than the
initial cursor, end exactly `dur` later, end within the bound, start after
`now`, and are strictly increasing. -/
lemma fillSlots_spec (now dur maxSlots bound : Int) (hdur : 0 < dur) :
    ∀ (fuel : Nat) (s : Int) (acc res : List Interval),
      fillSlots now dur maxSlots bound fuel s acc = some res →
      ∃ t, res = acc ++ t ∧
        (∀ x ∈ t, now < x.start ∧ x.stop = x.start + dur ∧ s ≤ x.start ∧
          x.stop ≤ bound) ∧
        t.Pairwise (fun a b => a.start < b.start) := by
  intro fuel
  induction fuel with
  | zero => intro s acc res h; exact absurd h (by simp [fillSlots])
  | succ n ih =>
    intro s acc res h
    simp only [fillSlots] at h
    split_ifs at h with h1 h2 h3
    · obtain rfl : acc ++ [⟨s, s + dur⟩] = res := Option.some.inj h
      refine ⟨[⟨s, s + dur⟩], rfl, ?_, by simp⟩
      intro x hx
      simp only [List.mem_singleton] at hx
      subst hx
      exact ⟨h2, rfl, le_refl s, h1⟩
    · obtain ⟨t, rfl, hprops, hpair⟩ := ih (s + dur) (acc ++ [⟨s, s + dur⟩]) res h
      refine ⟨⟨s, s + dur⟩ :: t, by simp, ?_, ?_⟩
      · intro x hx
        rcases List.mem_cons.mp hx with rfl | hxt
        · exact ⟨h2, rfl, le_refl s, h1⟩
        · obtain ⟨ha, hb, hc, hd⟩ := hprops x hxt
          exact ⟨ha, hb, by omega, hd⟩
      · refine List.pairwise_cons.mpr ⟨?_, hpair⟩
        intro y hy
        have hc := (hprops y hy).2.2.1
        exact lt_of_lt_of_le (lt_add_of_pos_right s hdur) hc
    · obtain ⟨t, rfl, hprops, hpair⟩ := ih (s + dur) acc res h
      refine ⟨t, rfl, ?_, hpair⟩
      intro x hx
      obtain ⟨ha, hb, hc, hd⟩ := hprops x hx
      exact ⟨ha, hb, by omega, hd⟩
    · obtain rfl : acc = res := Option.some.inj h
      exact ⟨[], by simp, by simp, by simp⟩

/-- Full specification of the busy-block loop for a sorted, well-formed
busy list and a positive duration: the final cursor does not move backward,
every new slot starts after `now` and at or after the initial cursor, ends
exactly `dur` later, ends at or before the final cursor, fits before some
busy block of the list, overlaps no busy block of the list, and the new
slots are strictly increasing; moreover, when the loop was not cut short by
`maxSlots`, the final cursor is at or after the end of every busy block of
the list. -/
lemma processBusy_spec (now dur maxSlots : Int) (fuel : Nat) (hdur : 0 < dur) :
    ∀ (l : List Interval) (ws : Int) (acc : List Interval) (ws' : Int)
      (res : List Interval),
      l.Pairwise (fun a b => a.start ≤ b.start) →
      (∀ b ∈ l, b.start < b.stop) →
      processBusy now dur maxSlots fuel l ws acc = some (ws', res) →
      ∃ t, res = acc ++ t ∧ ws ≤ ws' ∧
        (∀ x ∈ t, now < x.start ∧ x.stop = x.start + dur ∧ ws ≤ x.start ∧
          x.stop ≤ ws' ∧ (∃ b ∈ l, x.stop ≤ b.start) ∧
          (∀ b ∈ l, x.stop ≤ b.start ∨ b.stop ≤ x.start)) ∧
        t.Pairwise (fun a b => a.start < b.start) ∧
        ((res.length : Int) < maxSlots → ∀ b ∈ l, b.stop ≤ ws') := by
  intro l
  induction l with
  | nil =>
    intro ws acc ws' res _ _ h
    simp only [processBusy, Option.some.injEq, Prod.mk.injEq] at h
    obtain ⟨rfl, rfl⟩ := h
    exact ⟨[], by simp, le_refl ws, by simp, by simp,
      fun _ b hb => absurd hb (List.not_mem_nil b)⟩
  | cons b rest ih =>
    intro ws acc ws' res hsort hwf h
    obtain ⟨hble, hsort'⟩ := List.pairwise_cons.mp hsort
    have hbwf : b.start < b.stop := hwf b (List.mem_cons_self b rest)
    have hwf' : ∀ b' ∈ rest, b'.start < b'.stop :=
      fun b' hb' => hwf b' (List.mem_cons_of_mem b hb')
    simp only [processBusy] at h
    split at h
    · exact absurd h (by simp)
    · rename_i results2 heq
      have hgapspec : ∃ t1, results2 = acc ++ t1 ∧
          (∀ x ∈ t1, now < x.start ∧ x.stop = x.start + dur ∧ ws ≤ x.start ∧
            x.stop ≤ b.start) ∧
          t1.Pairwise (fun a b => a.start < b.start) := by
        split_ifs at heq with hgap
        · exact fillSlots_spec now dur maxSlots b.start hdur fuel ws acc
            results2 heq
        · obtain rfl : acc = results2 := Option.some.inj heq
          exact ⟨[], by simp, by simp, by simp⟩
      obtain ⟨t1, rfl, hp1, hpw1⟩ := hgapspec
      have hws2a : b.stop ≤ (if ws < b.stop then b.stop else ws) := by
        split_ifs with hc
        · exact le_refl _
        · omega
      have hws2b : ws ≤ (if ws < b.stop then b.stop else ws) := by
        split_ifs with hc
        · omega
        · exact le_refl _
      by_cases hbreak : maxSlots ≤ (((acc ++ t1).length : Nat) : Int)
      · rw [if_pos hbreak] at h
        simp only [Option.some.injEq, Prod.mk.injEq] at h
        obtain ⟨rfl, rfl⟩ := h
        refine ⟨t1, rfl, hws2b, ?_, hpw1, ?_⟩
        · intro x hx
          obtain ⟨ha, hb, hc, hd⟩ := hp1 x hx
          refine ⟨ha, hb, hc, le_trans hd (le_trans hbwf.le hws2a), ?_, ?_⟩
          · exact ⟨b, List.mem_cons_self b rest, hd⟩
          · intro b' hb'
            rcases List.mem_cons.mp hb' with rfl | hbr
            · exact Or.inl hd
            · exact Or.inl (le_trans hd (hble b' hbr))
        · intro hlt
          omega
      · rw [if_neg hbreak] at h
        obtain ⟨t2, rfl, hwsle, hp2, hpw2, himpl⟩ :=
          ih _ (acc ++ t1) ws' res hsort' hwf' h
        refine ⟨t1 ++ t2, by simp, le_trans hws2b hwsle, ?_, ?_, ?_⟩
        · intro x hx
          rcases List.mem_append.mp hx with hx1 | hx2
          · obtain ⟨ha, hb, hc, hd⟩ := hp1 x hx1
            refine ⟨ha, hb, hc,
              le_trans hd (le_trans hbwf.le (le_trans hws2a hwsle)), ?_, ?_⟩
            · exact ⟨b, List.mem_cons_self b rest, hd⟩
            · intro b' hb'
              rcases List.mem_cons.mp hb' with rfl | hbr
              · exact Or.inl hd
              · exact Or.inl (le_trans hd (hble b' hbr))
          · obtain ⟨ha, hb, hc, hd, ⟨b', hb', hfit⟩, hdisj⟩ := hp2 x hx2
            refine ⟨ha, hb, le_trans hws2b hc, hd,
              ⟨b', List.mem_cons_of_mem b hb', hfit⟩, ?_⟩
            intro b'' hb''
            rcases List.mem_cons.mp hb'' with rfl | hbr
            · exact Or.inr (le_trans hws2a hc)
            · exact hdisj b'' hbr
        · refine List.pairwise_append.mpr ⟨hpw1, hpw2, ?_⟩
          intro x hx1 y hy2
          obtain ⟨-, hxs, -, hxd⟩ := hp1 x hx1
          obtain ⟨-, -, hyc, -⟩ := hp2 y hy2
          have hxlt : x.start < x.stop := by omega
          exact lt_of_lt_of_le hxlt
            (le_trans hxd (le_trans hbwf.le (le_trans hws2a hyc)))
        · intro hlt b'' hb''
          rcases List.mem_cons.mp hb'' with rfl | hbr
          · exact le_trans hws2a hwsle
          · exact himpl hlt b'' hbr

/-- Full specification of one day's processing for a sorted, well-formed
busy list and a positive duration: the new slots start after `now`, last
exactly `dur` minutes, start within the day's business window, and overlap
no busy interval of the whole list; the new slots are strictly
increasing. -/
lemma processDay_spec (z : Zone) (busy : List Interval)
    (now dur maxSlots : Int) (fuel : Nat) (fromT cursor : Int)
    (acc res : List Interval) (hdur : 0 < dur)
    (hsort : busy.Pairwise (fun a b => a.start ≤ b.start))
    (hwf : ∀ b ∈ busy, b.start < b.stop)
    (h : processDay z busy now dur maxSlots fuel fromT cursor acc = some res) :
    ∃ t, res = acc ++ t ∧
      (∀ x ∈ t, now < x.start ∧ x.stop = x.start + dur ∧
        z.dayStartAt cursor ≤ x.start ∧ x.start < z.dayEndAt cursor ∧
        (∀ b ∈ busy, x.stop ≤ b.start ∨ b.stop ≤ x.start)) ∧
      t.Pairwise (fun a b => a.start < b.start) := by
  simp only [processDay] at h
  split_ifs at h with hday
  · split at h
    · exact absurd h (by simp)
    · rename_i ws2 acc2 heq
      have hsortT : (todaysBusy busy (z.dayStartAt cursor)
          (z.dayEndAt cursor)).Pairwise (fun a b => a.start ≤ b.start) :=
        List.Pairwise.sublist (List.filter_sublist _) hsort
      have hwfT : ∀ b ∈ todaysBusy busy (z.dayStartAt cursor)
          (z.dayEndAt cursor), b.start < b.stop :=
        fun b hb => hwf b (List.mem_of_mem_filter hb)
      obtain ⟨t1, rfl, hwsle, hp1, hpw1, himpl⟩ :=
        processBusy_spec now dur maxSlots fuel hdur _ _ acc ws2 acc2 hsortT
          hwfT heq
      have hmemT : ∀ b' ∈ todaysBusy busy (z.dayStartAt cursor)
          (z.dayEndAt cursor),
          z.dayStartAt cursor < b'.stop ∧ b'.start < z.dayEndAt cursor := by
        intro b' hb'
        have := List.mem_filter.mp hb'
        exact of_decide_eq_true this.2
      have hT1 : ∀ x ∈ t1, now < x.start ∧ x.stop = x.start + dur ∧
          z.dayStartAt cursor ≤ x.start ∧ x.start < z.dayEndAt cursor ∧
          (∀ b ∈ busy, x.stop ≤ b.start ∨ b.stop ≤ x.start) := by
        intro x hx
        obtain ⟨ha, hb, hc, hd, ⟨b', hb', hfit⟩, hdisj⟩ := hp1 x hx
        have hbpred := hmemT b' hb'
        refine ⟨ha, hb, hc, by omega, ?_⟩
        intro b'' hb''
        by_cases hpred : z.dayStartAt cursor < b''.stop ∧
            b''.start < z.dayEndAt cursor
        · exact hdisj b'' (List.mem_filter.mpr ⟨hb'', decide_eq_true hpred⟩)
        · rcases not_and_or.mp hpred with hp | hp
          · exact Or.inr (by omega)
          · exact Or.inl (by omega)
      split_ifs at h with htail
      · obtain ⟨t2, rfl, hp2, hpw2⟩ :=
          fillSlots_spec now dur maxSlots _ hdur fuel ws2 _ res h
        have hallstop : ∀ b' ∈ todaysBusy busy (z.dayStartAt cursor)
            (z.dayEndAt cursor), b'.stop ≤ ws2 := himpl htail.1
        have hT2 : ∀ x ∈ t2, now < x.start ∧ x.stop = x.start + dur ∧
            z.dayStartAt cursor ≤ x.start ∧ x.start < z.dayEndAt cursor ∧
            (∀ b ∈ busy, x.stop ≤ b.start ∨ b.stop ≤ x.start) := by
          intro x hx
          obtain ⟨ha, hb, hc, hd⟩ := hp2 x hx
          refine ⟨ha, hb, le_trans hwsle hc, by omega, ?_⟩
          intro b'' hb''
          by_cases hpred : z.dayStartAt cursor < b''.stop ∧
              b''.start < z.dayEndAt cursor
          · have := hallstop b'' (List.mem_filter.mpr ⟨hb'', decide_eq_true hpred⟩)
            exact Or.inr (by omega)
          · rcases not_and_or.mp hpred with hp | hp
            · exact Or.inr (by omega)
            · exact Or.inl (by omega)
        refine ⟨t1 ++ t2, by simp, ?_, ?_⟩
        · intro x hx
          rcases List.mem_append.mp hx with hx1 | hx2
          · exact hT1 x hx1
          · exact hT2 x hx2
        · refine List.pairwise_append.mpr ⟨hpw1, hpw2, ?_⟩
          intro x hx1 y hy2
          obtain ⟨-, hxs, -, hxd, -, -⟩ := hp1 x hx1
          obtain ⟨-, -, hyc, -⟩ := hp2 y hy2
          omega
      · obtain rfl : acc ++ t1 = res := Option.some.inj h
        exact ⟨t1, rfl, hT1, hpw1⟩
  · obtain rfl : acc = res := Option.some.inj h
    exact ⟨[], by simp, by simp, by simp⟩

/-- Every element of the result of the day loop, for a sorted well-formed
busy list and a positive duration, is either an element of the incoming
accumulator or overlaps no busy interval. -/
lemma findSlotsGo_disjoint (z : Zone) (busy : List Interval)
    (now dur maxSlots : Int) (fuel : Nat) (fromT hardEnd : Int)
    (hdur : 0 < dur)
    (hsort : busy.Pairwise (fun a b => a.start ≤ b.start))
    (hwf : ∀ b ∈ busy, b.start < b.stop) :
    ∀ (dayFuel : Nat) (cursor : Int) (acc res : List Interval),
      findSlotsGo z busy now dur maxSlots fuel fromT hardEnd dayFuel cursor acc
        = some res →
      ∀ x ∈ res, x ∈ acc ∨
        ∀ b ∈ busy, x.stop ≤ b.start ∨ b.stop ≤ x.start := by
  intro dayFuel
  induction dayFuel with
  | zero =>
    intro cursor acc res h x hx
    obtain rfl : acc = res := Option.some.inj h
    exact Or.inl hx
  | succ n ih =>
    intro cursor acc res h x hx
    simp only [findSlotsGo] at h
    split_ifs at h with hguard
    · split at h
      · exact absurd h (by simp)
      · rename_i results3 heq
        rcases ih (cursor + 1440) results3 res h x hx with hm | hp
        · obtain ⟨t, rfl, hprops, -⟩ :=
            processDay_spec z busy now dur maxSlots fuel fromT cursor acc
              results3 hdur hsort hwf heq
          rcases List.mem_append.mp hm with hma | hmt
          · exact Or.inl hma
          · exact Or.inr (hprops x hmt).2.2.2.2
        · exact Or.inr hp
    · obtain rfl : acc = res := Option.some.inj h
      exact Or.inl hx

/-! ### C1: returned slots never overlap busy intervals -/

/-- C1: for every request whose busy list consists of well-formed intervals
(`start < end`) sorted ascending by start, and a positive slot duration, no
slot returned by `findSlots` overlaps any busy interval:
`slot.end <= busy.start` or `slot.start >= busy.end`.  In particular
overlapping busy blocks are excluded jointly: gap slots end at or before
the next busy start, and after each busy block the cursor is advanced to
`max(windowStart, busyEnd)`, so no slot starts inside any busy block. -/
theorem C1_no_overlap (z : Zone) (busy : List Interval)
    (now dur maxSlots : Int) (fuel : Nat) (fromT toT : Int)
    (res : List Interval) (hdur : 0 < dur)
    (hsort : busy.Pairwise (fun a b => a.start ≤ b.start))
    (hwf : ∀ b ∈ busy, b.start < b.stop)
    (h : findSlots z busy now dur maxSlots fuel fromT toT = some res) :
    ∀ x ∈ res, ∀ b ∈ busy, x.stop ≤ b.start ∨ b.stop ≤ x.start := by
  intro x hx
  rcases findSlotsGo_disjoint z busy now dur maxSlots fuel fromT toT hdur
      hsort hwf (toT - fromT).toNat fromT [] res h x hx with hm | hp
  · exact absurd hm (List.not_mem_nil x)
  · exact hp

/-- C1 witness: the theorem at the spec's overlapping-busy scenario
(busy 10:00-11:30 and 11:00-12:00 as minutes 600-690 and 660-720): the
first returned slot 12:00-14:00 does not overlap the first busy block. -/
theorem C1_witness :
    (⟨720, 840⟩ : Interval).stop ≤ (⟨600, 690⟩ : Interval).start ∨
      (⟨600, 690⟩ : Interval).stop ≤ (⟨720, 840⟩ : Interval).start :=
  C1_no_overlap utcZone [⟨600, 690⟩, ⟨660, 720⟩] 0 120 20 50 540 1440
    [⟨720, 840⟩, ⟨840, 960⟩] (by decide) (by decide) (by decide) (by decide)
    ⟨720, 840⟩ (by decide) ⟨600, 690⟩ (by decide)

/-- The result of the day loop is strictly increasing by slot start, for a
sorted well-formed busy list, a positive duration, and a zone whose daily
business windows are ordered (each day's open is at or before its close,
and each day's close is at or before the next day's open), provided the
incoming accumulator is strictly increasing and lies before the current
day's open. -/
lemma findSlotsGo_sorted (z : Zone) (busy : List Interval)
    (now dur maxSlots : Int) (fuel : Nat) (fromT hardEnd : Int)
    (hdur : 0 < dur)
    (hsort : busy.Pairwise (fun a b => a.start ≤ b.start))
    (hwf : ∀ b ∈ busy, b.start < b.stop)
    (hz1 : ∀ c, z.dayStartAt c ≤ z.dayEndAt c)
    (hz2 : ∀ c, z.dayEndAt c ≤ z.dayStartAt (c + 1440)) :
    ∀ (dayFuel : Nat) (cursor : Int) (acc res : List Interval),
      acc.Pairwise (fun a b => a.start < b.start) →
      (∀ a ∈ acc, a.start < z.dayStartAt cursor) →
      findSlotsGo z busy now dur maxSlots fuel fromT hardEnd dayFuel cursor acc
        = some res →
      res.Pairwise (fun a b => a.start < b.start) := by
  intro dayFuel
  induction dayFuel with
  | zero =>
    intro cursor acc res haccpw _ h
    obtain rfl : acc = res := Option.some.inj h
    exact haccpw
  | succ n ih =>
    intro cursor acc res haccpw hacclt h
    simp only [findSlotsGo] at h
    split_ifs at h with hguard
    · split at h
      · exact absurd h (by simp)
      · rename_i results3 heq
        obtain ⟨t, rfl, hprops, hpwt⟩ :=
          processDay_spec z busy now dur maxSlots fuel fromT cursor acc
            results3 hdur hsort hwf heq
        refine ih (cursor + 1440) (acc ++ t) res ?_ ?_ h
        · refine List.pairwise_append.mpr ⟨haccpw, hpwt, ?_⟩
          intro a ha y hy
          exact lt_of_lt_of_le (hacclt a ha) (hprops y hy).2.2.1
        · intro a ha
          rcases List.mem_append.mp ha with haa | hat
          · exact lt_of_lt_of_le (hacclt a haa)
              (le_trans (hz1 cursor) (hz2 cursor))
          · exact lt_of_lt_of_le (hprops a hat).2.2.2.1 (hz2 cursor)
    · obtain rfl : acc = res := Option.some.inj h
      exact haccpw

/-! ### C5: the returned sequence is sorted ascending by start -/

/-- C5 counterexample: the claim asserts sortedness for any window start
and any time zone, dates around DST transitions included.  On a fall-back
day the cursor's 24-hour step can land on the same civil date (America/
Chicago, window from local 00:30 on 2025-11-02: 00:30 CDT plus 24 hours is
23:30 CST of the same date), so the day loop formats the same
`YYYY-MM-DD` twice, processes the same business window twice, and the
returned sequence is duplicated and not ascending - 17:00 is followed by
09:00 again.  Busy list empty (trivially well-formed and sorted), duration
240, `maxSlots` 10. -/
theorem C5_counterexample :
    findSlots fallZone [] 0 240 10 50 30 2910 =
      some [⟨540, 780⟩, ⟨780, 1020⟩, ⟨540, 780⟩, ⟨780, 1020⟩] ∧
      ¬ ([⟨540, 780⟩, ⟨780, 1020⟩, ⟨540, 780⟩, ⟨780, 1020⟩] :
          List Interval).Pairwise (fun a b => a.start ≤ b.start) :=
  ⟨by decide, by decide⟩

/-- C5 amended: for every request whose busy list consists of well-formed
intervals sorted ascending by start and a positive slot duration, the
sequence returned by `findSlots` is strictly ascending by slot start -
days and within-day gaps are processed left to right - provided the daily
business windows are ordered along the cursor's walk: each day's open is
at or before its close, and each day's close is at or before the open of
the day reached by the next 24-hour cursor step.  This holds for every
time zone and window start for which each cursor step advances the civil
date; it fails exactly in the fall-back situation of the counterexample,
where the same civil day is processed twice and the output is duplicated
and unsorted. -/
theorem C5_sorted (z : Zone) (busy : List Interval)
    (now dur maxSlots : Int) (fuel : Nat) (fromT toT : Int)
    (res : List Interval) (hdur : 0 < dur)
    (hsort : busy.Pairwise (fun a b => a.start ≤ b.start))
    (hwf : ∀ b ∈ busy, b.start < b.stop)
    (hz1 : ∀ c, z.dayStartAt c ≤ z.dayEndAt c)
    (hz2 : ∀ c, z.dayEndAt c ≤ z.dayStartAt (c + 1440))
    (h : findSlots z busy now dur maxSlots fuel fromT toT = some res) :
    res.Pairwise (fun a b => a.start < b.start) :=
  findSlotsGo_sorted z busy now dur maxSlots fuel fromT toT hdur hsort hwf
    hz1 hz2 (toT - fromT).toNat fromT [] res (by simp) (by simp) h

/-- The business windows of `utcZone` are ordered day by day. -/
lemma utcZone_mono1 : ∀ c : Int, utcZone.dayStartAt c ≤ utcZone.dayEndAt c := by
  intro c
  simp only [Zone.dayStartAt, Zone.dayEndAt, utcZone, WORK_START, WORK_END]
  omega

/-- Each day's close in `utcZone` is at or before the next day's open. -/
lemma utcZone_mono2 :
    ∀ c : Int, utcZone.dayEndAt c ≤ utcZone.dayStartAt (c + 1440) := by
  intro c
  simp only [Zone.dayStartAt, Zone.dayEndAt, utcZone, WORK_START, WORK_END]
  omega

/-- C5 witness: the theorem at a concrete two-day run. -/
theorem C5_witness :
    ([⟨540, 780⟩, ⟨780, 1020⟩] : List Interval).Pairwise
      (fun a b => a.start < b.start) :=
  C5_sorted utcZone [] 0 240 10 50 540 1440 [⟨540, 780⟩, ⟨780, 1020⟩]
    (by decide) (by decide) (by decide) utcZone_mono1 utcZone_mono2 (by decide)

/-! ### C4 amended: intervals outside every processed day are inert -/

/-- A busy interval that fails the per-day overlap filter for every day of
the searched window does not change the run of the day loop. -/
lemma findSlotsGo_filter_inert (z : Zone) (l1 l2 : List Interval)
    (b : Interval) (now dur maxSlots : Int) (fuel : Nat)
    (fromT hardEnd : Int)
    (hb : ∀ c, fromT ≤ c → c < hardEnd →
      b.stop ≤ z.dayStartAt c ∨ z.dayEndAt c ≤ b.start) :
    ∀ (dayFuel : Nat) (cursor : Int) (acc : List Interval),
      fromT ≤ cursor →
      findSlotsGo z (l1 ++ b :: l2) now dur maxSlots fuel fromT hardEnd
          dayFuel cursor acc =
        findSlotsGo z (l1 ++ l2) now dur maxSlots fuel fromT hardEnd
          dayFuel cursor acc := by
  intro dayFuel
  induction dayFuel with
  | zero => intro cursor acc _; rfl
  | succ n ih =>
    intro cursor acc hcur
    simp only [findSlotsGo]
    by_cases hguard : cursor < hardEnd ∧ (acc.length : Int) < maxSlots
    · rw [if_pos hguard, if_pos hguard]
      have hpredfalse :
          decide (z.dayStartAt cursor < b.stop ∧
            b.start < z.dayEndAt cursor) = false := by
        refine decide_eq_false ?_
        rcases hb cursor hcur hguard.1 with hc | hc
        · exact fun hand => absurd hand.1 (not_lt.mpr hc)
        · exact fun hand => absurd hand.2 (not_lt.mpr hc)
      have hfilter : todaysBusy (l1 ++ b :: l2) (z.dayStartAt cursor)
          (z.dayEndAt cursor) =
          todaysBusy (l1 ++ l2) (z.dayStartAt cursor) (z.dayEndAt cursor) := by
        simp only [todaysBusy, List.filter_append, List.filter_cons,
          hpredfalse]
        simp
      have hpd : processDay z (l1 ++ b :: l2) now dur maxSlots fuel fromT
          cursor acc =
          processDay z (l1 ++ l2) now dur maxSlots fuel fromT cursor acc := by
        simp only [processDay, hfilter]
      rw [hpd]
      cases hcase : processDay z (l1 ++ l2) now dur maxSlots fuel fromT
          cursor acc with
      | none => rfl
      | some results3 => exact ih (cursor + 1440) results3 (by omega)
    · rw [if_neg hguard, if_neg hguard]

/-- C4 amended: a busy interval (in particular a zero-length or inverted
one) that fails the per-day overlap test (`end <= dayStart` or
`start >= dayEnd`) for every day of the searched window is inert: removing
it from the busy list leaves the result of `findSlots` unchanged.  Inside a
day's business window such an interval is, by contrast, not inert (see the
counterexample): it can re-anchor the duration grid. -/
theorem C4_amended (z : Zone) (l1 l2 : List Interval) (b : Interval)
    (now dur maxSlots : Int) (fuel : Nat) (fromT toT : Int)
    (hb : ∀ c, fromT ≤ c → c < toT →
      b.stop ≤ z.dayStartAt c ∨ z.dayEndAt c ≤ b.start) :
    findSlots z (l1 ++ b :: l2) now dur maxSlots fuel fromT toT =
      findSlots z (l1 ++ l2) now dur maxSlots fuel fromT toT :=
  findSlotsGo_filter_inert z l1 l2 b now dur maxSlots fuel fromT toT hb
    (toT - fromT).toNat fromT [] (le_refl fromT)

/-- C4 witness: the amended theorem for a zero-length interval sitting
exactly at the day's close (17:00), which fails the overlap test for the
single processed day. -/
theorem C4_witness :
    findSlots utcZone [⟨1020, 1020⟩] 0 60 5 50 540 1440 =
      findSlots utcZone [] 0 60 5 50 540 1440 :=
  C4_amended utcZone [] [] ⟨1020, 1020⟩ 0 60 5 50 540 1440
    (fun c h1 h2 => Or.inr (by
      simp only [Zone.dayEndAt, utcZone, WORK_END]
      omega))

/-! ### C10: termination -/

/-- One-step unfolding of the inner slot loop. -/
lemma fillSlots_succ (now dur maxSlots bound : Int) (fuel : Nat) (s : Int)
    (acc : List Interval) :
    fillSlots now dur maxSlots bound (fuel + 1) s acc =
      if s + dur ≤ bound then
        if now < s then
          if maxSlots ≤ ((acc ++ [(⟨s, s + dur⟩ : Interval)]).length : Int) then
            some (acc ++ [(⟨s, s + dur⟩ : Interval)])
          else fillSlots now dur maxSlots bound fuel (s + dur)
            (acc ++ [(⟨s, s + dur⟩ : Interval)])
        else fillSlots now dur maxSlots bound fuel (s + dur) acc
      else some acc := rfl

/-- One extra unit of fuel preserves a finished run of the inner slot
loop. -/
lemma fillSlots_mono (now dur maxSlots bound : Int) :
    ∀ (fuel : Nat) (s : Int) (acc res : List Interval),
      fillSlots now dur maxSlots bound fuel s acc = some res →
      fillSlots now dur maxSlots bound (fuel + 1) s acc = some res := by
  intro fuel
  induction fuel with
  | zero => intro s acc res h; exact absurd h (by simp [fillSlots])
  | succ n ih =>
    intro s acc res h
    rw [fillSlots_succ] at h
    rw [fillSlots_succ]
    split_ifs at h ⊢ with h1 h2 h3
    · exact h
    · exact ih _ _ _ h
    · exact ih _ _ _ h
    · exact h

/-- Any larger fuel preserves a finished run of the inner slot loop. -/
lemma fillSlots_mono_le (now dur maxSlots bound : Int) {fuel fuel' : Nat}
    (hle : fuel ≤ fuel') :
    ∀ {s : Int} {acc res : List Interval},
      fillSlots now dur maxSlots bound fuel s acc = some res →
      fillSlots now dur maxSlots bound fuel' s acc = some res := by
  induction hle with
  | refl => exact fun h => h
  | step hm ih =>
    intro s acc res h
    exact fillSlots_mono now dur maxSlots bound _ s acc res (ih h)

/-- Any larger fuel preserves a finished run of the busy-block loop. -/
lemma processBusy_mono_le (now dur maxSlots : Int) {fuel fuel' : Nat}
    (hle : fuel ≤ fuel') :
    ∀ (l : List Interval) (ws : Int) (acc : List Interval)
      (out : Int × List Interval),
      processBusy now dur maxSlots fuel l ws acc = some out →
      processBusy now dur maxSlots fuel' l ws acc = some out := by
  intro l
  induction l with
  | nil => intro ws acc out h; exact h
  | cons b rest ih =>
    intro ws acc out h
    simp only [processBusy] at h ⊢
    cases hgap : (if ws < b.start then
        fillSlots now dur maxSlots b.start fuel ws acc else some acc) with
    | none => rw [hgap] at h; exact absurd h (by simp)
    | some results2 =>
      have hgap' : (if ws < b.start then
          fillSlots now dur maxSlots b.start fuel' ws acc else some acc) =
          some results2 := by
        split_ifs at hgap ⊢ with hc
        · exact fillSlots_mono_le now dur maxSlots b.start hle hgap
        · exact hgap
      simp only [hgap] at h
      simp only [hgap']
      by_cases hbreak : maxSlots ≤ ((results2.length : Nat) : Int)
      · rw [if_pos hbreak] at h ⊢
        exact h
      · rw [if_neg hbreak] at h ⊢
        exact ih _ results2 out h

/-- Any larger fuel preserves a finished run of one day's processing. -/
lemma processDay_mono_le (z : Zone) (busy : List Interval)
    (now dur maxSlots : Int) {fuel fuel' : Nat} (hle : fuel ≤ fuel')
    (fromT cursor : Int) (acc res : List Interval)
    (h : processDay z busy now dur maxSlots fuel fromT cursor acc = some res) :
    processDay z busy now dur maxSlots fuel' fromT cursor acc = some res := by
  simp only [processDay] at h ⊢
  split_ifs at h ⊢ with hday
  · cases hpb : processBusy now dur maxSlots fuel
        (todaysBusy busy (z.dayStartAt cursor) (z.dayEndAt cursor))
        (z.dayStartAt cursor) acc with
    | none => rw [hpb] at h; exact absurd h (by simp)
    | some p =>
      obtain ⟨ws2, acc2⟩ := p
      have hpb' := processBusy_mono_le now dur maxSlots hle _ _ acc
        (ws2, acc2) hpb
      simp only [hpb] at h
      simp only [hpb']
      split_ifs at h ⊢ with htail
      · exact fillSlots_mono_le now dur maxSlots _ hle h
      · exact h
  · exact h

/-- Any larger fuel preserves a finished run of the day loop. -/
lemma findSlotsGo_mono_le (z : Zone) (busy : List Interval)
    (now dur maxSlots : Int) {fuel fuel' : Nat} (hle : fuel ≤ fuel')
    (fromT hardEnd : Int) :
    ∀ (dayFuel : Nat) (cursor : Int) (acc res : List Interval),
      findSlotsGo z busy now dur maxSlots fuel fromT hardEnd dayFuel cursor
          acc = some res →
      findSlotsGo z busy now dur maxSlots fuel' fromT hardEnd dayFuel cursor
          acc = some res := by
  intro dayFuel
  induction dayFuel with
  | zero => intro cursor acc res h; exact h
  | succ n ih =>
    intro cursor acc res h
    simp only [findSlotsGo] at h ⊢
    split_ifs at h ⊢ with hguard
    · cases hpd : processDay z busy now dur maxSlots fuel fromT cursor acc with
      | none => rw [hpd] at h; exact absurd h (by simp)
      | some results3 =>
        have hpd' := processDay_mono_le z busy now dur maxSlots hle fromT
          cursor acc results3 hpd
        simp only [hpd] at h
        simp only [hpd']
        exact ih (cursor + 1440) results3 res h
    · exact h

/-- For a positive duration the inner slot loop always finishes, for some
fuel: the cursor strictly approaches the bound. -/
lemma fillSlots_exists (now dur maxSlots bound : Int) (hdur : 0 < dur) :
    ∀ (s : Int) (acc : List Interval),
      ∃ (fuel : Nat) (res : List Interval),
        fillSlots now dur maxSlots bound fuel s acc = some res := by
  suffices H : ∀ (n : Nat) (s : Int) (acc : List Interval),
      (bound - s).toNat ≤ n →
      ∃ (fuel : Nat) (res : List Interval),
        fillSlots now dur maxSlots bound fuel s acc = some res by
    intro s acc
    exact H (bound - s).toNat s acc le_rfl
  intro n
  induction n with
  | zero =>
    intro s acc hle
    have h1 : ¬(s + dur ≤ bound) := by omega
    exact ⟨1, acc, by simp [fillSlots, h1]⟩
  | succ n ih =>
    intro s acc hle
    by_cases h1 : s + dur ≤ bound
    · by_cases h2 : now < s
      · by_cases h3 :
          maxSlots ≤ ((acc ++ [(⟨s, s + dur⟩ : Interval)]).length : Int)
        · refine ⟨1, acc ++ [(⟨s, s + dur⟩ : Interval)], ?_⟩
          rw [show (1 : Nat) = 0 + 1 from rfl, fillSlots_succ,
            if_pos h1, if_pos h2, if_pos h3]
        · obtain ⟨f, r, hf⟩ :=
            ih (s + dur) (acc ++ [(⟨s, s + dur⟩ : Interval)]) (by omega)
          refine ⟨f + 1, r, ?_⟩
          rw [fillSlots_succ, if_pos h1, if_pos h2, if_neg h3]
          exact hf
      · obtain ⟨f, r, hf⟩ := ih (s + dur) acc (by omega)
        refine ⟨f + 1, r, ?_⟩
        rw [fillSlots_succ, if_pos h1, if_neg h2]
        exact hf
    · refine ⟨1, acc, ?_⟩
      rw [show (1 : Nat) = 0 + 1 from rfl, fillSlots_succ, if_neg h1]

/-- For a positive duration the busy-block loop always finishes, for some
fuel. -/
lemma processBusy_exists (now dur maxSlots : Int) (hdur : 0 < dur) :
    ∀ (l : List Interval) (ws : Int) (acc : List Interval),
      ∃ (fuel : Nat) (out : Int × List Interval),
        processBusy now dur maxSlots fuel l ws acc = some out := by
  intro l
  induction l with
  | nil => intro ws acc; exact ⟨0, (ws, acc), rfl⟩
  | cons b rest ih =>
    intro ws acc
    have hgapex : ∃ (f : Nat) (results2 : List Interval),
        (if ws < b.start then
          fillSlots now dur maxSlots b.start f ws acc else some acc) =
          some results2 := by
      by_cases hgap : ws < b.start
      · obtain ⟨f, r, hf⟩ := fillSlots_exists now dur maxSlots b.start hdur ws acc
        exact ⟨f, r, by rw [if_pos hgap]; exact hf⟩
      · exact ⟨0, acc, by rw [if_neg hgap]⟩
    obtain ⟨f1, results2, hf1⟩ := hgapex
    by_cases hbreak : maxSlots ≤ ((results2.length : Nat) : Int)
    · refine ⟨f1, (if ws < b.stop then b.stop else ws, results2), ?_⟩
      simp only [processBusy, hf1]
      rw [if_pos hbreak]
    · obtain ⟨f2, out, hf2⟩ := ih (if ws < b.stop then b.stop else ws) results2
      refine ⟨max f1 f2, out, ?_⟩
      have hf1' : (if ws < b.start then
          fillSlots now dur maxSlots b.start (max f1 f2) ws acc
          else some acc) = some results2 := by
        split_ifs at hf1 ⊢ with hc
        · exact fillSlots_mono_le now dur maxSlots b.start (le_max_left f1 f2) hf1
        · exact hf1
      simp only [processBusy, hf1']
      rw [if_neg hbreak]
      exact processBusy_mono_le now dur maxSlots (le_max_right f1 f2) rest _
        results2 out hf2

/-- For a positive duration one day's processing always finishes, for some
fuel. -/
lemma processDay_exists (z : Zone) (busy : List Interval)
    (now dur maxSlots : Int) (hdur : 0 < dur) (fromT cursor : Int)
    (acc : List Interval) :
    ∃ (fuel : Nat) (res : List Interval),
      processDay z busy now dur maxSlots fuel fromT cursor acc = some res := by
  by_cases hday : fromT < z.dayEndAt cursor
  · obtain ⟨f1, ⟨ws2, acc2⟩, h1⟩ := processBusy_exists now dur maxSlots hdur
      (todaysBusy busy (z.dayStartAt cursor) (z.dayEndAt cursor))
      (z.dayStartAt cursor) acc
    by_cases htail : (acc2.length : Int) < maxSlots ∧ ws2 < z.dayEndAt cursor
    · obtain ⟨f2, r, h2⟩ := fillSlots_exists now dur maxSlots
        (z.dayEndAt cursor) hdur ws2 acc2
      refine ⟨max f1 f2, r, ?_⟩
      have h1' := processBusy_mono_le now dur maxSlots (le_max_left f1 f2) _
        _ acc (ws2, acc2) h1
      simp only [processDay, h1']
      rw [if_pos hday, if_pos htail]
      exact fillSlots_mono_le now dur maxSlots _ (le_max_right f1 f2) h2
    · refine ⟨f1, acc2, ?_⟩
      simp only [processDay, h1]
      rw [if_pos hday, if_neg htail]
  · exact ⟨0, acc, by simp [processDay, hday]⟩

/-- For a positive duration the day loop always finishes, for some fuel. -/
lemma findSlotsGo_exists (z : Zone) (busy : List Interval)
    (now dur maxSlots : Int) (hdur : 0 < dur) (fromT hardEnd : Int) :
    ∀ (dayFuel : Nat) (cursor : Int) (acc : List Interval),
      ∃ (fuel : Nat) (res : List Interval),
        findSlotsGo z busy now dur maxSlots fuel fromT hardEnd dayFuel cursor
          acc = some res := by
  intro dayFuel
  induction dayFuel with
  | zero => intro cursor acc; exact ⟨0, acc, rfl⟩
  | succ n ih =>
    intro cursor acc
    by_cases hguard : cursor < hardEnd ∧ (acc.length : Int) < maxSlots
    · obtain ⟨f1, res3, h1⟩ := processDay_exists z busy now dur maxSlots hdur
        fromT cursor acc
      obtain ⟨f2, res, h2⟩ := ih (cursor + 1440) res3
      refine ⟨max f1 f2, res, ?_⟩
      have h1' := processDay_mono_le z busy now dur maxSlots
        (le_max_left f1 f2) fromT cursor acc res3 h1
      simp only [findSlotsGo, h1']
      rw [if_pos hguard]
      exact findSlotsGo_mono_le z busy now dur maxSlots (le_max_right f1 f2)
        fromT hardEnd n (cursor + 1440) res3 res h2
    · exact ⟨0, acc, by simp [findSlotsGo, hguard]⟩

/-- With a zero duration and every candidate in the past, the inner slot
loop never finishes: the cursor does not advance and nothing is ever
pushed, so no fuel suffices. -/
lemma fillSlots_diverges :
    ∀ (f : Nat) (acc : List Interval),
      fillSlots 1000000 0 5 1020 f 540 acc = none := by
  intro f
  induction f with
  | zero => intro acc; rfl
  | succ n ih =>
    intro acc
    simp only [fillSlots]
    rw [if_pos (by norm_num : (540 : Int) + 0 ≤ 1020),
      if_neg (by norm_num : ¬((1000000 : Int) < 540))]
    have h540 : (540 : Int) + 0 = 540 := by norm_num
    rw [h540]
    exact ih acc

/-- C10: for every input with a positive duration, `findSlots` terminates -
the inner slot loops advance by `durationMin` toward their bound, the day
loop advances the cursor by one day toward the window end, and some fuel
makes the whole run finish.  The guarantee is conditional on a positive
duration: for `durationMin = 0` (window 540-1440 with `now` in the far
future) the inner slot loop's condition holds forever, the computation
finishes for no fuel at all. -/
theorem C10_termination :
    (∀ (z : Zone) (busy : List Interval) (now dur maxSlots fromT toT : Int),
        0 < dur →
        ∃ (fuel : Nat) (res : List Interval),
          findSlots z busy now dur maxSlots fuel fromT toT = some res) ∧
      ∀ fuel : Nat,
        findSlots utcZone [] 1000000 0 5 fuel 540 1440 = none := by
  constructor
  · intro z busy now dur maxSlots fromT toT hdur
    exact findSlotsGo_exists z busy now dur maxSlots hdur fromT toT
      (toT - fromT).toNat fromT []
  · intro fuel
    have hds : utcZone.dayStartAt 540 = 540 := by decide
    have hde : utcZone.dayEndAt 540 = 1020 := by decide
    have hpd : processDay utcZone [] 1000000 0 5 fuel 540 540 [] = none := by
      simp only [processDay, hds, hde]
      rw [if_pos (by norm_num : (540 : Int) < 1020)]
      have htb : todaysBusy [] (540 : Int) 1020 = [] := rfl
      rw [htb]
      simp only [processBusy]
      rw [if_pos (by constructor <;> norm_num)]
      exact fillSlots_diverges fuel []
    show findSlotsGo utcZone [] 1000000 0 5 fuel 540 1440
        ((1440 - 540 : Int)).toNat 540 [] = none
    have h900 : ((1440 - 540 : Int)).toNat = 899 + 1 := by decide
    rw [h900]
    simp only [findSlotsGo, hpd]
    rw [if_pos (by constructor <;> norm_num)]

/-- C10 witness: the termination half at a concrete input with a positive
duration. -/
theorem C10_witness :
    ∃ (fuel : Nat) (res : List Interval),
      findSlots utcZone [] 0 60 5 fuel 540 1440 = some res :=
  C10_termination.1 utcZone [] 0 60 5 540 1440 (by norm_num)

end ScritchlowCalendar
